import Mathlib

/-!
Verification of the blogger static-site generator (onfoot/blogger).

The development shallowly embeds the Go sources:
* package `post` (article data model, tag normalization, front-matter
  parsing, article construction, path resolution, sort order), and
* the `generate` pipeline from the main package (per-file processing,
  corpus classification into the All/Index/Feed/SnippetFeed views,
  sorting, and tag-index construction), together with the
  filename-suffix draft convention applied by the driver loop.

Go's standard-library `time.Time` is modelled as an abstract record of
the observations the program makes of it (an instant for `Before`, and
the `Year()`/`Month()` readouts), and `time.Parse` is a parameter of
the definitions that use it, mirroring its role as an external
primitive.  All repository code is translated directly.
-/

namespace Blogger

/-- Model of Go `time.Time`: an instant (for `Before` comparisons) plus
the calendar readouts `Year()` and `Month()` used by `BasePath`. -/
structure Time where
  instant : Int
  year : Int
  month : Nat
deriving Repr, DecidableEq

/-- Go `t.Before(u)`: strict comparison of instants. -/
def Time.before (t u : Time) : Bool :=
  t.instant < u.instant

/-- The zero `time.Time` (Go `new(time.Time)`): January 1 of year 1. -/
def zeroTime : Time :=
  { instant := -62135596800000000000, year := 1, month := 1 }

/-! ### String helpers (Go `strings` package, on the character lists) -/

/-- Go `strings.ToLower` (ASCII case mapping). -/
def strToLower (s : String) : String :=
  String.mk (s.data.map Char.toLower)

/-- Go `strings.HasPrefix`. -/
def strStartsWith (s pre : String) : Bool :=
  pre.data.isPrefixOf s.data

/-- Go `strings.HasSuffix`. -/
def strEndsWith (s suf : String) : Bool :=
  suf.data.isSuffixOf s.data

/-- Go `strings.TrimPrefix`. -/
def trimPrefixStr (s pre : String) : String :=
  if strStartsWith s pre then String.mk (s.data.drop pre.data.length) else s

/-! ### Decimal rendering (Go `strconv.Itoa` and `fmt.Sprintf "%02d"`) -/

/-- The decimal digit character for `n < 10`. -/
def natDigitChar (n : Nat) : Char :=
  Char.ofNat (48 + n)

/-- Accumulator form of decimal rendering of a natural number, with a
fuel argument for structural recursion (a fuel of `n + 1` always
suffices, since the quotient loses a digit each step). -/
def natToStrCore : Nat → Nat → List Char → List Char
  | 0, _, acc => acc
  | fuel + 1, n, acc =>
    if n < 10 then natDigitChar n :: acc
    else natToStrCore fuel (n / 10) (natDigitChar (n % 10) :: acc)

/-- Decimal rendering of a natural number. -/
def natToStr (n : Nat) : String :=
  String.mk (natToStrCore (n + 1) n [])

/-- Go `strconv.Itoa` on the `int` year. -/
def intToStr (i : Int) : String :=
  if i < 0 then "-" ++ natToStr (-i).toNat else natToStr i.toNat

/-- Go `fmt.Sprintf("%02d", m)`: zero-padded to width two. -/
def pad2 (n : Nat) : String :=
  if n < 10 then "0" ++ natToStr n else natToStr n

/-- Go `path.Join` on two already-clean slash-free components. -/
def pathJoin (a b : String) : String :=
  if a = "" then b else if b = "" then a else a ++ "/" ++ b

/-! ### The `post` package data model (src/unnamed/part_000) -/

/-- `PageType` is a string alias in the source (`type PageType string`). -/
abbrev PageType := String

/-- The constant `Post` ("A regular blog article"). -/
def Post : PageType := "Post"

/-- The constant `Page` ("A site-wide page"). -/
def Page : PageType := "Page"

/-- The constant `Snippet` ("Twitter-like short blog post"). -/
def Snippet : PageType := "Snippet"

/-- `DefaultDateFormat`: Go `time.RFC3339`. -/
def DefaultDateFormat : String := "2006-01-02T15:04:05Z07:00"

/-- `IFTTTDateFormat`. -/
def IFTTTDateFormat : String := "January 02, 2006 at 03:04PM"

/-- The `Tag` structure of the `post` package. -/
structure Tag where
  Name : String
  OriginalName : String
  Hidden : Bool
deriving Repr, DecidableEq

/-- `MakeTag`: lowercase the token, strip a leading dash, and record
whether stripping changed anything as the hidden flag. -/
def MakeTag (tag : String) : Tag :=
  let prepared := strToLower tag
  let trimmed := trimPrefixStr prepared "-"
  let hidden := trimmed != prepared
  { Name := trimmed, OriginalName := tag, Hidden := hidden }

/-- The `Article` structure of the `post` package.  Pointer-valued
dates become `Option Time`; the raw body bytes become a `String`;
the Go `map[string]string` for `Meta` becomes an association list. -/
structure Article where
  Author : String := ""
  DateModified : Option Time := none
  DateUpdated : Option Time := none
  Title : String := ""
  Content : String := ""
  RawContent : String := ""
  Description : String := ""
  Filename : String := ""
  Link : String := ""
  Identifier : String := ""
  Typ : PageType := ""   -- the source field is named Type, a reserved word here
  Draft : Bool := false
  Tags : List Tag := []
  AppID : String := ""
  Meta : List (String × String) := []
deriving Repr, DecidableEq

/-- `Article.HasTag`: linear scan comparing the queried string with
each tag's `Name`. -/
def Article.HasTag (a : Article) (aTag : String) : Bool :=
  a.Tags.any (fun tag => aTag == tag.Name)

/-- The date-derived path component `YYYY/MM` produced by the final
return of `BasePath` (`path.Join(strconv.Itoa(Year), Sprintf("%02d", Month))`).
Go dereferences the `DateModified` pointer here; article construction
guarantees it is non-nil, and the model totalizes the dereference with
the zero time. -/
def Article.datePath (a : Article) : String :=
  let d := a.DateModified.getD zeroTime
  pathJoin (intToStr d.year) (pad2 d.month)

/-- `Article.BasePath`: the Go `switch` on the article type.  `Post`
and `Snippet` return "drafts" when the draft flag is set and otherwise
fall out of the switch to the dated path; `Page` returns the root; any
other type value falls through the switch to the dated path. -/
def Article.BasePath (a : Article) : String :=
  if a.Typ = Post ∨ a.Typ = Snippet then
    if a.Draft then "drafts" else a.datePath
  else if a.Typ = Page then ""
  else a.datePath

/-- `Article.FullPath`: `path.Join(BasePath, Filename)`. -/
def Article.FullPath (a : Article) : String :=
  pathJoin a.BasePath a.Filename

/-- `Articles.Less(i, j)` of the sort interface:
`right.Before(left)`, i.e. the element sorting earlier has the later
modification date. -/
def articlesLess (x y : Article) : Bool :=
  Time.before (y.DateModified.getD zeroTime) (x.DateModified.getD zeroTime)

/-- The instant of an article's modification date, as observed by the
comparator (nil dereference totalized as in `articlesLess`). -/
def dateVal (a : Article) : Int :=
  (a.DateModified.getD zeroTime).instant

/-! ### Front-matter parsing (`ParseFrontMatter`)

The `bufio.Reader` is modelled as the list of characters not yet
consumed.  `reader.ReadString('\n')` returns the consumed chunk up to
and including the first newline; when the stream ends first it returns
the remaining characters together with an end-of-stream error. -/

/-- `reader.ReadString('\n')`: `(line, rest, errored)`. -/
def readLineCh : List Char → List Char × List Char × Bool
  | [] => ([], [], true)
  | c :: cs =>
    if c = '\n' then ([c], cs, false)
    else
      let r := readLineCh cs
      (c :: r.1, r.2.1, r.2.2)

/-- The cutset of `strings.Trim(x, " \t\r\n")`. -/
def isCutChar (c : Char) : Bool :=
  c = ' ' || c = '\t' || c = '\r' || c = '\n'

/-- `strings.Trim(x, " \t\r\n")`: strip the cutset from both ends. -/
def trimGo (l : List Char) : List Char :=
  ((l.dropWhile isCutChar).reverse.dropWhile isCutChar).reverse

/-- `strings.SplitN(line, ":", 2)`: split at the first colon, keeping
everything after it (including further colons) as the value; `none`
when the line has no colon (`len(values) < 2`). -/
def splitAtColon : List Char → Option (List Char × List Char)
  | [] => none
  | c :: cs =>
    if c = ':' then some ([], cs)
    else
      match splitAtColon cs with
      | none => none
      | some (k, v) => some (c :: k, v)

/-- Go map assignment `data[key] = value`: last write wins. -/
def mapSet (m : List (String × String)) (k v : String) : List (String × String) :=
  m.filter (fun p => p.1 ≠ k) ++ [(k, v)]

/-- Go map lookup `data[key]`. -/
def mapGet (m : List (String × String)) (k : String) : Option String :=
  (m.find? (fun p => p.1 = k)).map (fun p => p.2)

/-- The body of the `ParseFrontMatter` reading loop on one line that
is neither terminal nor erroneous: split at the first colon; a line
without a colon is skipped; otherwise trim key and value and record
them, overwriting any earlier binding. -/
def stepData (data : List (String × String)) (line : List Char) : List (String × String) :=
  match splitAtColon line with
  | none => data
  | some (k, v) => mapSet data (String.mk (trimGo k)) (String.mk (trimGo v))

/-- A successful (delimiter-found) read consumes at least the newline,
so the remaining stream shrinks. -/
theorem readLineCh_sound (l : List Char) {line rest : List Char}
    (h : readLineCh l = (line, rest, false)) : rest.length < l.length := by
  induction l generalizing line rest with
  | nil => simp [readLineCh] at h
  | cons c cs ih =>
    by_cases hc : c = '\n'
    · simp only [readLineCh, hc, if_true] at h
      cases h
      simp
    · rcases hr : readLineCh cs with ⟨l1, l2, b⟩
      simp only [readLineCh, hc, if_false, ite_false, hr] at h
      cases h
      have := ih hr
      simp
      omega

/-- The `for` loop of `ParseFrontMatter`: read a line; stop on an
end-of-stream error or on a line with the `---` marker at its start;
otherwise process the line and continue.  The fuel argument makes the
recursion structural; a fuel exceeding the stream length is always
sufficient, since each successful read shrinks the stream. -/
def parseFMLoop : Nat → List Char → List (String × String) →
    List (String × String) × List Char
  | 0, _, data => (data, [])
  | fuel + 1, input, data =>
    match readLineCh input with
    | (_, rest, true) => (data, rest)
    | (line, rest, false) =>
      if ("---".data).isPrefixOf line then (data, rest)
      else parseFMLoop fuel rest (stepData data line)

/-- `ParseFrontMatter`: fail unless the first line carries the `---`
marker at its start (the read error on that first line is ignored, as
in the source); then run the reading loop with an empty map. -/
def ParseFrontMatter (input : List Char) :
    Except String (List (String × String) × List Char) :=
  let r := readLineCh input
  if ¬ ("---".data).isPrefixOf r.1 then .error "Invalid front matter header"
  else .ok (parseFMLoop (r.2.1.length + 1) r.2.1 [])

/-- A header region presented as lines-without-newline, rejoined into
the character stream (each line regains its terminating newline). -/
def joinLines (ws : List (List Char)) : List Char :=
  (ws.map (fun w => w ++ ['\n'])).flatten

/-! ### Article construction (`ReadArticle`) -/

/-- Go `time.Parse(layout, value)`, an external standard-library
primitive: a parameter mapping a layout and a value to the parsed
time, or `none` on a parse error. -/
abbrev TimeParse := String → String → Option Time

/-- The divider predicate passed to `strings.FieldsFunc` for the
`tags` value: any whitespace, comma or semicolon. -/
def isTagDivider (c : Char) : Bool :=
  c.isWhitespace || c == ',' || c == ';'

/-- `strings.FieldsFunc(value, isTagDivider)`: split at divider runs,
dropping empty fields. -/
def fieldsFunc (s : String) : List String :=
  ((s.data.splitOnP (fun c => isTagDivider c)).filter (fun w => w ≠ [])).map String.mk

/-- One iteration of the `ReadArticle` key loop: the `meta-` check
comes first, then the `switch` on the key.  An unparseable `date` or
`updated` value aborts with the parse error; every other branch
succeeds. -/
def applyKey (tp : TimeParse) (a : Article) (key value : String) : Except String Article :=
  if strStartsWith key "meta-" then
    .ok { a with Meta := mapSet a.Meta (trimPrefixStr key "meta-") value }
  else if key = "title" then .ok { a with Title := value }
  else if key = "author" then .ok { a with Author := value }
  else if key = "description" then .ok { a with Description := value }
  else if key = "link" then .ok { a with Link := value }
  else if key = "date" then
    match tp DefaultDateFormat value with
    | some t => .ok { a with DateModified := some t }
    | none =>
      match tp IFTTTDateFormat value with
      | some t => .ok { a with DateModified := some t }
      | none => .error "date parse error"
  else if key = "updated" then
    match tp DefaultDateFormat value with
    | some t => .ok { a with DateUpdated := some t }
    | none =>
      match tp IFTTTDateFormat value with
      | some t => .ok { a with DateUpdated := some t }
      | none => .error "date parse error"
  else if key = "appid" then .ok { a with AppID := value }
  else if key = "draft" then .ok { a with Draft := value == "true" }
  else if key = "type" then
    .ok { a with Typ := if value = "Post" then Post
                        else if value = "Page" then Page
                        else if value = "Snippet" then Snippet
                        else a.Typ }
  else if key = "tags" then
    .ok { a with Tags := a.Tags ++ (fieldsFunc value).map MakeTag }
  else .ok a

/-- The key loop of `ReadArticle` over the parsed front matter. -/
def processKeys (tp : TimeParse) (fm : List (String × String)) (a : Article) :
    Except String Article :=
  fm.foldlM (fun a kv => applyKey tp a kv.1 kv.2) a

/-- The two-format date resolution used for `date` and `updated`
values: the default (RFC 3339) layout first, then the IFTTT layout. -/
def resolveDate (tp : TimeParse) (v : String) : Option Time :=
  match tp DefaultDateFormat v with
  | some t => some t
  | none => tp IFTTTDateFormat v

/-- `ReadArticle`: parse the front matter, fold the key loop over it
starting from the zero `Article`, default a missing `DateModified` to
the current time, and take the unconsumed remainder of the stream as
the raw content. -/
def ReadArticle (tp : TimeParse) (now : Time) (input : List Char) : Except String Article :=
  match ParseFrontMatter input with
  | .error _ => .error "Invalid article header"
  | .ok (fm, rest) =>
    match processKeys tp fm {} with
    | .error e => .error e
    | .ok a0 =>
      let a1 := if a0.DateModified.isNone then { a0 with DateModified := some now } else a0
      .ok { a1 with RawContent := String.mk rest }

/-! ### The `generate` pipeline (src/article.go)

The orchestration around the per-file loop of `generate`: markdown
rendering is an external primitive (a `String → String` parameter),
file enumeration and the template/write steps are external.  The
filename-suffix draft convention of the driver loop is applied after
construction, before classification. -/

/-- One enumerated source file: base name (extension stripped) and
its content. -/
structure SourceFile where
  name : String
  content : String
deriving Repr, DecidableEq

/-- Per-file processing of `generate`: a file whose article fails to
parse is skipped (logged) and contributes nothing; otherwise the
rendered content, output filename and identifier are filled in, the
nil-date fallback to the zero time is applied (dead after
`ReadArticle`), and a base name ending in "draft" forces the draft
flag. -/
def processFile (tp : TimeParse) (render : String → String) (ext : String) (now : Time)
    (f : SourceFile) : Option Article :=
  match ReadArticle tp now f.content.data with
  | .error _ => none
  | .ok a0 =>
    let a1 := { a0 with
      Content := render a0.RawContent,
      Filename := f.name ++ ext,
      DateModified := if a0.DateModified.isNone then some zeroTime else a0.DateModified,
      Identifier := f.name }
    if strEndsWith f.name "draft" then some { a1 with Draft := true } else some a1

/-- The four accumulated views of one run. -/
structure Views where
  all : List Article := []
  index : List Article := []
  feed : List Article := []
  snippets : List Article := []
deriving Repr, DecidableEq

/-- The classification step of the per-file loop: every article joins
`all`; a `Page` joins nothing else; a draft joins nothing else; a
`Post` joins the feed, a `Snippet` the snippet feed, and both (and any
other non-`Page` type) join the index. -/
def classifyStep (v : Views) (a : Article) : Views :=
  let v1 := { v with all := v.all ++ [a] }
  if a.Typ = Page then v1
  else if a.Draft then v1
  else
    let v2 := if a.Typ = Post then { v1 with feed := v1.feed ++ [a] } else v1
    let v3 := if a.Typ = Snippet then { v2 with snippets := v2.snippets ++ [a] } else v2
    { v3 with index := v3.index ++ [a] }

/-- Classification of the whole corpus, in enumeration order. -/
def classify (arts : List Article) : Views :=
  arts.foldl classifyStep {}

/-- The order `sort.Sort` establishes: `x` may precede `y` exactly
when `Articles.Less` does not demand the opposite order. -/
def sortLe (x y : Article) : Bool :=
  ! articlesLess y x

/-- `sort.Sort(view)`: some permutation of the view that is pairwise
ordered by the comparator; realized by insertion sort, which meets
exactly the contract `sort.Sort` guarantees for this total order. -/
def sortView (l : List Article) : List Article :=
  l.insertionSort (fun x y => sortLe x y = true)

/-- The tag-collection loop of `generate`: the names of all tags of
all rendered articles (the map key is the normalized tag name, the
identity `HasTag` consults), first occurrences kept. -/
def collectTagNames (arts : List Article) : List String :=
  ((arts.map (fun a => a.Tags.map (fun t => t.Name))).flatten).dedup

/-- The outputs of one `generate` run that the claims observe: the
four sorted views and the tag-index pages (tag name with the articles
listed on its page). -/
structure GenResult where
  all : List Article
  index : List Article
  feed : List Article
  snippets : List Article
  tagPages : List (String × List Article)
deriving Repr, DecidableEq

/-- One `generate` run: process every file (skipping failures),
classify, sort every view, and emit one tag page per collected tag
name, each listing the index articles carrying that tag. -/
def generate (tp : TimeParse) (render : String → String) (ext : String) (now : Time)
    (files : List SourceFile) : GenResult :=
  let arts := files.filterMap (processFile tp render ext now)
  let v := classify arts
  let all := sortView v.all
  let index := sortView v.index
  let feed := sortView v.feed
  let snippets := sortView v.snippets
  let tagNames := collectTagNames all
  { all := all, index := index, feed := feed, snippets := snippets,
    tagPages := tagNames.map (fun t => (t, index.filter (fun a => a.HasTag t))) }

/-- Every article list a run presents for rendering: the four views
and the listing of every tag page. -/
def runViews (r : GenResult) : List (List Article) :=
  [r.all, r.index, r.feed, r.snippets] ++ r.tagPages.map (fun p => p.2)

/-! ### Tag normalization facts -/

/-- No character other than the dash itself lowercases to a dash. -/
theorem toLower_eq_dash_iff (c : Char) : c.toLower = '-' ↔ c = '-' := by
  constructor
  · intro h
    simp only [Char.toLower] at h
    split at h
    · rename_i hc
      obtain ⟨h1, h2⟩ := hc
      exfalso
      generalize hg : Char.toNat c = n at h h1 h2
      interval_cases n <;> exact absurd h (by decide)
    · exact h
  · intro h
    subst h
    decide

/-- `MakeTag` computes the name as the lowercased token with a leading
dash stripped. -/
theorem makeTag_name (t : String) :
    (MakeTag t).Name = strToLower (trimPrefixStr t "-") := by
  rcases t with ⟨l⟩
  cases l with
  | nil => rfl
  | cons c cs =>
    show (MakeTag ⟨c :: cs⟩).Name = strToLower (trimPrefixStr ⟨c :: cs⟩ "-")
    simp only [MakeTag, strToLower, trimPrefixStr, strStartsWith]
    by_cases hc : c = '-'
    · subst hc
      simp [List.isPrefixOf, String.data]
    · have hc2 : ¬ ('-' = c) := fun h => hc h.symm
      have hlc : ¬ ('-' = Char.toLower c) := fun h =>
        hc ((toLower_eq_dash_iff c).mp h.symm)
      simp [List.isPrefixOf, String.data, hc2, hlc]

/-- `MakeTag` leaves the original token untouched. -/
theorem makeTag_originalName (t : String) : (MakeTag t).OriginalName = t := rfl

/-- The hidden flag of `MakeTag` holds exactly when the raw token
starts with a dash. -/
theorem makeTag_hidden (t : String) :
    (MakeTag t).Hidden = strStartsWith t "-" := by
  rcases t with ⟨l⟩
  cases l with
  | nil => rfl
  | cons c cs =>
    show (MakeTag ⟨c :: cs⟩).Hidden = strStartsWith ⟨c :: cs⟩ "-"
    simp only [MakeTag, strToLower, trimPrefixStr, strStartsWith]
    by_cases hc : c = '-'
    · subst hc
      have hne : String.mk (List.map Char.toLower cs) ≠
          String.mk ('-' :: List.map Char.toLower cs) := by
        intro h
        have := congrArg (fun s => s.data.length) h
        simp at this
      simp [List.isPrefixOf, String.data, hne]
    · have hc2 : ¬ ('-' = c) := fun h => hc h.symm
      have hlc : ¬ ('-' = Char.toLower c) := fun h =>
        hc ((toLower_eq_dash_iff c).mp h.symm)
      simp [List.isPrefixOf, String.data, hc2, hlc]

/-- C5: for every tag token, normalization produces the lowercased
token with the leading dash (if any) stripped as the name, the hidden
flag exactly when the raw token begins with a dash, and the unmodified
token as the original text; in particular "-Golang" normalizes to
(golang, hidden) and "Golang" to (golang, visible). -/
theorem claim_C5 :
    (∀ t : String,
      (MakeTag t).Name = strToLower (trimPrefixStr t "-") ∧
      (MakeTag t).OriginalName = t ∧
      (MakeTag t).Hidden = strStartsWith t "-") ∧
    MakeTag "-Golang" = { Name := "golang", OriginalName := "-Golang", Hidden := true } ∧
    MakeTag "Golang" = { Name := "golang", OriginalName := "Golang", Hidden := false } := by
  refine ⟨fun t => ⟨makeTag_name t, makeTag_originalName t, makeTag_hidden t⟩, ?_, ?_⟩ <;> decide

/-! ### Path resolution facts -/

theorem natToStrCore_len1 (fuel n : Nat) (acc : List Char) (hf : 1 ≤ fuel) (h : n < 10) :
    (natToStrCore fuel n acc).length = 1 + acc.length := by
  cases fuel with
  | zero => omega
  | succ f =>
    simp [natToStrCore, h]
    omega

theorem natToStrCore_len2 (fuel n : Nat) (acc : List Char) (hf : 2 ≤ fuel)
    (h1 : 10 ≤ n) (h2 : n < 100) :
    (natToStrCore fuel n acc).length = 2 + acc.length := by
  cases fuel with
  | zero => omega
  | succ f =>
    have hn : ¬ n < 10 := by omega
    simp only [natToStrCore, hn, if_false]
    rw [natToStrCore_len1 f (n / 10) _ (by omega) (by omega)]
    simp
    omega

theorem natToStrCore_len3 (fuel n : Nat) (acc : List Char) (hf : 3 ≤ fuel)
    (h1 : 100 ≤ n) (h2 : n < 1000) :
    (natToStrCore fuel n acc).length = 3 + acc.length := by
  cases fuel with
  | zero => omega
  | succ f =>
    have hn : ¬ n < 10 := by omega
    simp only [natToStrCore, hn, if_false]
    rw [natToStrCore_len2 f (n / 10) _ (by omega) (by omega) (by omega)]
    simp
    omega

theorem natToStrCore_len4 (fuel n : Nat) (acc : List Char) (hf : 4 ≤ fuel)
    (h1 : 1000 ≤ n) (h2 : n < 10000) :
    (natToStrCore fuel n acc).length = 4 + acc.length := by
  cases fuel with
  | zero => omega
  | succ f =>
    have hn : ¬ n < 10 := by omega
    simp only [natToStrCore, hn, if_false]
    rw [natToStrCore_len3 f (n / 10) _ (by omega) (by omega) (by omega)]
    simp
    omega

/-- A year between 1000 and 9999 renders as four characters. -/
theorem intToStr_len4 (i : Int) (h1 : 1000 ≤ i) (h2 : i ≤ 9999) :
    (intToStr i).length = 4 := by
  have hneg : ¬ i < 0 := by omega
  have hb1 : 1000 ≤ i.toNat := by omega
  have hb2 : i.toNat < 10000 := by omega
  simp only [intToStr, hneg, if_false, natToStr]
  show (natToStrCore (i.toNat + 1) i.toNat []).length = 4
  rw [natToStrCore_len4 _ _ _ (by omega) hb1 hb2]
  rfl

/-- A month value up to 99 renders zero-padded as two characters. -/
theorem pad2_len2 (m : Nat) (hm : m ≤ 99) : (pad2 m).length = 2 := by
  by_cases h : m < 10
  · simp only [pad2, h, if_true, String.length_append, natToStr]
    show "0".length + (natToStrCore (m + 1) m []).length = 2
    rw [natToStrCore_len1 _ _ _ (by omega) h]
    rfl
  · simp only [pad2, h, if_false, natToStr]
    show (natToStrCore (m + 1) m []).length = 2
    rw [natToStrCore_len2 _ _ _ (by omega) (by omega) (by omega)]
    rfl

theorem length_pos_ne_empty {s : String} (h : 0 < s.length) : s ≠ "" := by
  intro he
  rw [he] at h
  simp at h

/-- C3 (amended): the resolved output path is the bare filename for
type `Page`; `drafts/filename` for a draft `Post` or `Snippet`; and
the dated `YYYY/MM/filename` (four-character year for years between
1000 and 9999, two-character zero-padded month) for a non-draft `Post`
or `Snippet` — and for every type value that is none of `Post`,
`Page`, `Snippet`, the `switch` falls through to the same dated path
as a non-draft `Post`, not to the root. -/
theorem claim_C3 (a : Article) (d : Time)
    (hd : a.DateModified = some d) (hf : a.Filename ≠ "")
    (hy1 : 1000 ≤ d.year) (hy2 : d.year ≤ 9999) (hm : d.month ≤ 99) :
    a.FullPath =
      (if a.Typ = Page then a.Filename
       else if (a.Typ = Post ∨ a.Typ = Snippet) ∧ a.Draft then "drafts" ++ "/" ++ a.Filename
       else intToStr d.year ++ "/" ++ pad2 d.month ++ "/" ++ a.Filename) ∧
    (intToStr d.year).length = 4 ∧ (pad2 d.month).length = 2 := by
  have hylen := intToStr_len4 d.year hy1 hy2
  have hmlen := pad2_len2 d.month hm
  have hyne : intToStr d.year ≠ "" := length_pos_ne_empty (by omega)
  have hmne : pad2 d.month ≠ "" := length_pos_ne_empty (by omega)
  refine ⟨?_, hylen, hmlen⟩
  have hdp : a.datePath = intToStr d.year ++ "/" ++ pad2 d.month := by
    simp [Article.datePath, hd, pathJoin, hyne, hmne]
  have hdpne : a.datePath ≠ "" := by
    rw [hdp]
    apply length_pos_ne_empty
    simp [String.length_append]
    omega
  have hjoin : ∀ base : String, base ≠ "" → pathJoin base a.Filename = base ++ "/" ++ a.Filename := by
    intro base hb
    simp [pathJoin, hb, hf]
  by_cases hPS : a.Typ = Post ∨ a.Typ = Snippet
  · have hP : ¬ a.Typ = Page := by
      rcases hPS with h | h <;> rw [h] <;> decide
    by_cases hD : a.Draft
    · have hB : a.BasePath = "drafts" := by
        simp [Article.BasePath, hPS, hD]
      rw [Article.FullPath, hB, hjoin _ (by decide), if_neg hP, if_pos ⟨hPS, hD⟩]
    · have hB : a.BasePath = a.datePath := by
        rw [Article.BasePath, if_pos hPS, if_neg hD]
      rw [Article.FullPath, hB, hjoin _ hdpne, hdp, if_neg hP,
        if_neg (fun h : _ ∧ _ => hD h.2)]
  · by_cases hP : a.Typ = Page
    · have hB : a.BasePath = "" := by
        rw [Article.BasePath, if_neg hPS, if_pos hP]
      rw [Article.FullPath, hB, if_pos hP]
      simp [pathJoin]
    · have hB : a.BasePath = a.datePath := by
        rw [Article.BasePath, if_neg hPS, if_neg hP]
      rw [Article.FullPath, hB, hjoin _ hdpne, hdp, if_neg hP,
        if_neg (fun h : _ ∧ _ => hPS h.1)]

/-- Witness: a concrete non-draft post dated 2024-01 lands at
2024/01/hello.html. -/
theorem claim_C3_witness :
    Article.FullPath
      { Typ := Post, DateModified := some (Time.mk 0 2024 1),
        Filename := "hello.html", Draft := false } = "2024/01/hello.html" := by
  have h := claim_C3
    { Typ := Post, DateModified := some (Time.mk 0 2024 1),
      Filename := "hello.html", Draft := false }
    (Time.mk 0 2024 1) rfl (by decide) (by decide) (by decide) (by decide)
  rw [h.1]
  decide

/-- Counterexample to C3 as stated: an article whose type is the
(unrecognized) empty string resolves to the dated path, not to the
bare filename at the site root. -/
theorem claim_C3_counterexample :
    Article.FullPath
      { Typ := "", DateModified := some (Time.mk 0 2024 1),
        Filename := "f", Draft := false } = "2024/01/f" ∧
    ("2024/01/f" : String) ≠ "f" := by
  constructor <;> decide

/-! ### Ordering facts -/

/-- The sort order is the reflection of descending instants. -/
theorem sortLe_iff (x y : Article) : sortLe x y = true ↔ dateVal y ≤ dateVal x := by
  simp [sortLe, articlesLess, Time.before, dateVal]

/-- Sorting produces a permutation of the view. -/
theorem sortView_perm (l : List Article) : List.Perm (sortView l) l :=
  List.perm_insertionSort _ l

/-- Membership is preserved by sorting. -/
theorem mem_sortView {a : Article} {l : List Article} : a ∈ sortView l ↔ a ∈ l :=
  (sortView_perm l).mem_iff

/-- Every view a run produces is pairwise descending by date. -/
theorem sortView_pairwise (l : List Article) :
    (sortView l).Pairwise (fun a b => dateVal b ≤ dateVal a) := by
  have htot : IsTotal Article (fun x y => sortLe x y = true) := by
    constructor
    intro a b
    rcases Int.le_total (dateVal b) (dateVal a) with h | h
    · exact Or.inl ((sortLe_iff a b).mpr h)
    · exact Or.inr ((sortLe_iff b a).mpr h)
  have htr : IsTrans Article (fun x y => sortLe x y = true) := by
    constructor
    intro a b c hab hbc
    exact (sortLe_iff a c).mpr (le_trans ((sortLe_iff b c).mp hbc) ((sortLe_iff a b).mp hab))
  have h := @List.sorted_insertionSort Article (fun x y => sortLe x y = true)
    (fun _ _ => instDecidableEqBool _ _) htot htr l
  exact h.imp (fun hab => (sortLe_iff _ _).mp hab)

/-- In a pairwise-descending list, a strictly later article sits at a
strictly smaller position. -/
theorem pairwise_desc_index_lt {l : List Article}
    (hp : l.Pairwise (fun a b => dateVal b ≤ dateVal a))
    (i j : Nat) (hi : i < l.length) (hj : j < l.length)
    (hlt : dateVal (l.get ⟨j, hj⟩) < dateVal (l.get ⟨i, hi⟩)) : i < j := by
  by_contra hij
  push_neg at hij
  rcases Nat.eq_or_lt_of_le hij with he | hl
  · have : (⟨j, hj⟩ : Fin l.length) = ⟨i, hi⟩ := by
      apply Fin.ext
      exact he
    rw [this] at hlt
    omega
  · have := (List.pairwise_iff_get.mp hp) ⟨j, hj⟩ ⟨i, hi⟩ hl
    omega

/-- C2: in every view of a run (All, Index, Feed, SnippetFeed, and
every tag page listing), an article with a strictly later modification
date precedes one with a strictly earlier date — views are descending
by date, most recent first. -/
theorem claim_C2 (tp : TimeParse) (render : String → String) (ext : String) (now : Time)
    (files : List SourceFile) (v : List Article)
    (hv : v ∈ runViews (generate tp render ext now files))
    (i j : Nat) (hi : i < v.length) (hj : j < v.length)
    (hlt : dateVal (v.get ⟨j, hj⟩) < dateVal (v.get ⟨i, hi⟩)) : i < j := by
  have hpw : v.Pairwise (fun a b => dateVal b ≤ dateVal a) := by
    simp only [runViews, generate, List.cons_append, List.nil_append, List.mem_cons,
      List.mem_map] at hv
    rcases hv with rfl | rfl | rfl | rfl | ⟨p, hp, rfl⟩
    · exact sortView_pairwise _
    · exact sortView_pairwise _
    · exact sortView_pairwise _
    · exact sortView_pairwise _
    · rcases hp with ⟨t, ht, rfl⟩
      exact (sortView_pairwise _).filter _
  exact pairwise_desc_index_lt hpw i j hi hj hlt

/-- Witness: on a two-article corpus the later-dated article indeed
precedes the earlier one in the All view. -/
theorem claim_C2_witness : (0 : Nat) < 1 := by
  have h := claim_C2
    (fun _ v => if v = "A" then some (Time.mk 10 2024 1)
                else if v = "B" then some (Time.mk 5 2023 1) else none)
    (fun s => s) "" (Time.mk 0 1 1)
    [SourceFile.mk "a" "---\ndate: A\n---\n", SourceFile.mk "b" "---\ndate: B\n---\n"]
    (generate
      (fun _ v => if v = "A" then some (Time.mk 10 2024 1)
                  else if v = "B" then some (Time.mk 5 2023 1) else none)
      (fun s => s) "" (Time.mk 0 1 1)
      [SourceFile.mk "a" "---\ndate: A\n---\n", SourceFile.mk "b" "---\ndate: B\n---\n"]).all
    (List.Mem.head _) 0 1 (by decide) (by decide) (by decide)
  exact h

/-! ### Front-matter parser facts -/

/-- Reading a newline-terminated line returns exactly that line. -/
theorem readLineCh_append (w rest : List Char) (hw : '\n' ∉ w) :
    readLineCh (w ++ '\n' :: rest) = (w ++ ['\n'], rest, false) := by
  induction w with
  | nil => simp [readLineCh]
  | cons c cs ih =>
    have hc : ¬ c = '\n' := fun h => hw (h ▸ List.mem_cons_self c cs)
    have hcs : '\n' ∉ cs := fun h => hw (List.mem_cons_of_mem c h)
    simp [readLineCh, hc, ih hcs]

/-- A line without a colon yields no key/value split. -/
theorem splitAtColon_none (l : List Char) (h : ':' ∉ l) : splitAtColon l = none := by
  induction l with
  | nil => rfl
  | cons c cs ih =>
    have hc : ¬ c = ':' := fun he => h (he ▸ List.mem_cons_self c cs)
    have hcs : ':' ∉ cs := fun hm => h (List.mem_cons_of_mem c hm)
    simp [splitAtColon, hc, ih hcs]

/-- The split happens at the first colon; the value keeps everything
after it. -/
theorem splitAtColon_append (k v : List Char) (hk : ':' ∉ k) :
    splitAtColon (k ++ ':' :: v) = some (k, v) := by
  induction k with
  | nil => simp [splitAtColon]
  | cons c cs ih =>
    have hc : ¬ c = ':' := fun he => hk (he ▸ List.mem_cons_self c cs)
    have hcs : ':' ∉ cs := fun hm => hk (List.mem_cons_of_mem c hm)
    simp [splitAtColon, hc, ih hcs]

/-- Trimming absorbs the terminating newline of a header line. -/
theorem trimGo_newline (v : List Char) : trimGo (v ++ ['\n']) = trimGo v := by
  unfold trimGo
  rw [List.dropWhile_append]
  by_cases h : (v.dropWhile isCutChar).isEmpty
  · have hv : v.dropWhile isCutChar = [] := by
      simpa [List.isEmpty_iff] using h
    simp [h, hv, List.dropWhile, isCutChar]
  · simp only [h, if_false, List.reverse_append]
    have : ([ '\n' ] : List Char).reverse = ['\n'] := rfl
    simp [List.dropWhile, isCutChar]

/-- Last write wins: after a map assignment the key reads back the
assigned value. -/
theorem mapGet_mapSet (m : List (String × String)) (k v : String) :
    mapGet (mapSet m k v) k = some v := by
  unfold mapGet mapSet
  rw [List.find?_append]
  have hnone : (m.filter (fun p => p.1 ≠ k)).find? (fun p => decide (p.1 = k)) = none := by
    rw [List.find?_eq_none]
    intro x hx
    have := (List.mem_filter.mp hx).2
    simpa using this
  rw [hnone]
  simp

/-- Running the reading loop over well-formed header lines followed by
a `---`-led closing line folds the per-line step over the lines and
leaves the stream after the closing line untouched. -/
theorem parseFMLoop_run (ws : List (List Char)) (u body : List Char)
    (data : List (String × String)) (fuel : Nat) (hu : '\n' ∉ u)
    (hws : ∀ w ∈ ws, '\n' ∉ w ∧ ¬ ("---".data).isPrefixOf (w ++ ['\n']))
    (hf : (joinLines ws ++ ("---".data ++ u ++ '\n' :: body)).length < fuel) :
    parseFMLoop fuel (joinLines ws ++ ("---".data ++ u ++ '\n' :: body)) data =
      (ws.foldl (fun d w => stepData d (w ++ ['\n'])) data, body) := by
  induction ws generalizing data fuel with
  | nil =>
    cases fuel with
    | zero => simp at hf
    | succ f =>
      have hnl : '\n' ∉ ("---".data ++ u) := by
        intro hm
        rcases List.mem_append.mp hm with h | h
        · simp [String.data] at h
        · exact hu h
      have hr := readLineCh_append ("---".data ++ u) body hnl
      have hpre : ("---".data).isPrefixOf (("---".data ++ u) ++ ['\n']) := by
        rw [List.isPrefixOf_iff_prefix, List.append_assoc]
        exact ⟨u ++ ['\n'], rfl⟩
      simp only [joinLines, List.map_nil, List.flatten_nil, List.nil_append]
      rw [show ("---".data ++ u ++ '\n' :: body) = (("---".data ++ u) ++ '\n' :: body) by
        simp [List.append_assoc]]
      simp only [parseFMLoop, hr]
      simp [hpre]
  | cons w ws ih =>
    cases fuel with
    | zero => simp at hf
    | succ f =>
      obtain ⟨hw, hwp⟩ := hws w (List.mem_cons_self w ws)
      have hshape : joinLines (w :: ws) ++ ("---".data ++ u ++ '\n' :: body) =
          w ++ '\n' :: (joinLines ws ++ ("---".data ++ u ++ '\n' :: body)) := by
        simp [joinLines, List.append_assoc]
      rw [hshape]
      have hr := readLineCh_append w (joinLines ws ++ ("---".data ++ u ++ '\n' :: body)) hw
      simp only [parseFMLoop, hr]
      rw [if_neg (by simpa using hwp)]
      rw [ih (stepData data (w ++ ['\n'])) f
        (fun x hx => hws x (List.mem_cons_of_mem w hx))
        (by
          rw [hshape] at hf
          simp at hf ⊢
          omega)]
      simp

/-- `ParseFrontMatter` on a full document: a first line led by `---`
(possibly with trailing text) opens the header; the well-formed lines
are folded; a closing line led by `---` (possibly with trailing text)
stops consumption, leaving the body untouched. -/
theorem ParseFrontMatter_run (t u body : List Char) (ws : List (List Char))
    (ht : '\n' ∉ t) (hu : '\n' ∉ u)
    (hws : ∀ w ∈ ws, '\n' ∉ w ∧ ¬ ("---".data).isPrefixOf (w ++ ['\n'])) :
    ParseFrontMatter
        ("---".data ++ t ++ '\n' :: (joinLines ws ++ ("---".data ++ u ++ '\n' :: body))) =
      .ok (ws.foldl (fun d w => stepData d (w ++ ['\n'])) [], body) := by
  have hnl : '\n' ∉ ("---".data ++ t) := by
    intro hm
    rcases List.mem_append.mp hm with h | h
    · simp [String.data] at h
    · exact ht h
  have hr := readLineCh_append ("---".data ++ t)
    (joinLines ws ++ ("---".data ++ u ++ '\n' :: body)) hnl
  have hpre : ("---".data).isPrefixOf (("---".data ++ t) ++ ['\n']) := by
    rw [List.isPrefixOf_iff_prefix, List.append_assoc]
    exact ⟨t ++ ['\n'], rfl⟩
  unfold ParseFrontMatter
  rw [hr]
  simp only [hpre, not_true, if_false]
  rw [parseFMLoop_run ws u body [] _ hu hws (by
    have hd : "---".data = ['-', '-', '-'] := rfl
    rw [hd]
    omega)]

/-- C7: for a well-formed header the parser folds each line in order
and stops at the closing delimiter leaving the body untouched; a line
with a colon is split at its first colon (the value may contain
colons), key and value are trimmed of surrounding whitespace and
recorded with a later write overwriting an earlier one; a line without
a colon is silently ignored. -/
theorem claim_C7 :
    (∀ (ws : List (List Char)) (body : List Char),
      (∀ w ∈ ws, '\n' ∉ w ∧ ¬ ("---".data).isPrefixOf (w ++ ['\n'])) →
      ParseFrontMatter ("---".data ++ '\n' :: (joinLines ws ++ ("---".data ++ '\n' :: body))) =
        .ok (ws.foldl (fun d w => stepData d (w ++ ['\n'])) [], body)) ∧
    (∀ (m : List (String × String)) (k v : List Char), ':' ∉ k →
      stepData m (k ++ ':' :: (v ++ ['\n'])) =
        mapSet m (String.mk (trimGo k)) (String.mk (trimGo v))) ∧
    (∀ (m : List (String × String)) (k v : String),
      mapGet (mapSet m k v) k = some v) ∧
    (∀ (m : List (String × String)) (l : List Char), ':' ∉ l → stepData m l = m) := by
  refine ⟨?_, ?_, mapGet_mapSet, ?_⟩
  · intro ws body hws
    have h := ParseFrontMatter_run [] [] body ws (by simp) (by simp) hws
    simpa using h
  · intro m k v hk
    unfold stepData
    rw [splitAtColon_append k (v ++ ['\n']) hk]
    simp only [trimGo_newline]
  · intro m l hl
    unfold stepData
    rw [splitAtColon_none l hl]

/-- Witness: a concrete header with a duplicate key, a colon-free
line and whitespace around keys and values parses to the last trimmed
binding, with the body left over. -/
theorem claim_C7_witness :
    ParseFrontMatter
        ("---".data ++ '\n' ::
          (joinLines ["k: a".data, "nocolon".data, "k:  b ".data] ++
            ("---".data ++ '\n' :: "BODY".data))) =
      .ok ([("k", "b")], "BODY".data) := by
  have h := claim_C7.1 ["k: a".data, "nocolon".data, "k:  b ".data] "BODY".data (by decide)
  rw [h]
  rfl

/-- C10: delimiters are recognized by the three-dash marker at the
start of the line only — an opening line with trailing text after
`---` is accepted, and any header line led by `---` (for example a
would-be key/value line) terminates the header, the rest of the
stream becoming the body. -/
theorem claim_C10 (t u body : List Char) (ht : '\n' ∉ t) (hu : '\n' ∉ u) :
    ParseFrontMatter ("---".data ++ t ++ '\n' :: ("---".data ++ u ++ '\n' :: body)) =
      .ok ([], body) := by
  have h := ParseFrontMatter_run t u body [] ht hu (by simp)
  simpa [joinLines] using h

/-- Witness: "---junk" opens the header and "---key: value" closes it
rather than binding a key. -/
theorem claim_C10_witness :
    ParseFrontMatter
        ("---".data ++ "junk".data ++ '\n' ::
          ("---".data ++ "key: value".data ++ '\n' :: "BODY".data)) =
      .ok ([], "BODY".data) :=
  claim_C10 "junk".data "key: value".data "BODY".data (by decide) (by decide)

/-! ### Article construction facts -/

/-- The `date` branch of the key loop is the two-format resolution. -/
theorem applyKey_date (tp : TimeParse) (a : Article) (v : String) :
    applyKey tp a "date" v =
      (match resolveDate tp v with
       | some t => .ok { a with DateModified := some t }
       | none => .error "date parse error") := by
  rcases e1 : tp DefaultDateFormat v with _ | t
  · rcases e2 : tp IFTTTDateFormat v with _ | t2 <;>
      simp +decide [applyKey, resolveDate, e1, e2]
  · simp +decide [applyKey, resolveDate, e1]

/-- The `updated` branch of the key loop is the two-format resolution. -/
theorem applyKey_updated (tp : TimeParse) (a : Article) (v : String) :
    applyKey tp a "updated" v =
      (match resolveDate tp v with
       | some t => .ok { a with DateUpdated := some t }
       | none => .error "date parse error") := by
  rcases e1 : tp DefaultDateFormat v with _ | t
  · rcases e2 : tp IFTTTDateFormat v with _ | t2 <;>
      simp +decide [applyKey, resolveDate, e1, e2]
  · simp +decide [applyKey, resolveDate, e1]

/-- The `type` branch of the key loop: exact string match, otherwise
the field is left as it was. -/
theorem applyKey_type (tp : TimeParse) (a : Article) (v : String) :
    applyKey tp a "type" v =
      .ok { a with Typ := if v = "Post" then Post
                          else if v = "Page" then Page
                          else if v = "Snippet" then Snippet
                          else a.Typ } := by
  simp +decide [applyKey]

/-- Every key other than `date` leaves the modification date alone,
and every key other than `type` leaves the type alone. -/
theorem applyKey_preserve {tp : TimeParse} {a : Article} {key value : String} {b : Article}
    (h : applyKey tp a key value = .ok b) :
    (¬ key = "date" → b.DateModified = a.DateModified) ∧
    (¬ key = "type" → b.Typ = a.Typ) := by
  unfold applyKey at h
  by_cases h1 : strStartsWith key "meta-" = true
  · rw [if_pos h1] at h
    injection h with h
    subst h
    exact ⟨fun _ => rfl, fun _ => rfl⟩
  rw [if_neg h1] at h
  by_cases h2 : key = "title"
  · rw [if_pos h2] at h
    injection h with h
    subst h
    exact ⟨fun _ => rfl, fun _ => rfl⟩
  rw [if_neg h2] at h
  by_cases h3 : key = "author"
  · rw [if_pos h3] at h
    injection h with h
    subst h
    exact ⟨fun _ => rfl, fun _ => rfl⟩
  rw [if_neg h3] at h
  by_cases h4 : key = "description"
  · rw [if_pos h4] at h
    injection h with h
    subst h
    exact ⟨fun _ => rfl, fun _ => rfl⟩
  rw [if_neg h4] at h
  by_cases h5 : key = "link"
  · rw [if_pos h5] at h
    injection h with h
    subst h
    exact ⟨fun _ => rfl, fun _ => rfl⟩
  rw [if_neg h5] at h
  by_cases h6 : key = "date"
  · rw [if_pos h6] at h
    refine ⟨fun hd => absurd h6 hd, fun _ => ?_⟩
    rcases e1 : tp DefaultDateFormat value with _ | t
    · rcases e2 : tp IFTTTDateFormat value with _ | t2
      · simp only [e1, e2] at h
        exact Except.noConfusion h
      · simp only [e1, e2] at h
        injection h with h
        subst h
        rfl
    · simp only [e1] at h
      injection h with h
      subst h
      rfl
  rw [if_neg h6] at h
  by_cases h7 : key = "updated"
  · rw [if_pos h7] at h
    rcases e1 : tp DefaultDateFormat value with _ | t
    · rcases e2 : tp IFTTTDateFormat value with _ | t2
      · simp only [e1, e2] at h
        exact Except.noConfusion h
      · simp only [e1, e2] at h
        injection h with h
        subst h
        exact ⟨fun _ => rfl, fun _ => rfl⟩
    · simp only [e1] at h
      injection h with h
      subst h
      exact ⟨fun _ => rfl, fun _ => rfl⟩
  rw [if_neg h7] at h
  by_cases h8 : key = "appid"
  · rw [if_pos h8] at h
    injection h with h
    subst h
    exact ⟨fun _ => rfl, fun _ => rfl⟩
  rw [if_neg h8] at h
  by_cases h9 : key = "draft"
  · rw [if_pos h9] at h
    injection h with h
    subst h
    exact ⟨fun _ => rfl, fun _ => rfl⟩
  rw [if_neg h9] at h
  by_cases h10 : key = "type"
  · rw [if_pos h10] at h
    injection h with h
    subst h
    exact ⟨fun _ => rfl, fun ht => absurd h10 ht⟩
  rw [if_neg h10] at h
  by_cases h11 : key = "tags"
  · rw [if_pos h11] at h
    injection h with h
    subst h
    exact ⟨fun _ => rfl, fun _ => rfl⟩
  rw [if_neg h11] at h
  injection h with h
  subst h
  exact ⟨fun _ => rfl, fun _ => rfl⟩

/-- Without a `date` binding the key loop leaves the modification
date alone. -/
theorem processKeys_date_none (tp : TimeParse) (fm : List (String × String))
    (a0 b : Article) (h : processKeys tp fm a0 = .ok b)
    (hnone : mapGet fm "date" = none) :
    b.DateModified = a0.DateModified := by
  induction fm generalizing a0 with
  | nil =>
    unfold processKeys at h
    simp only [List.foldlM_nil] at h
    injection h with h
    rw [h]
  | cons kv rest ih =>
    have hk : ¬ kv.1 = "date" := by
      intro he
      unfold mapGet at hnone
      rw [List.find?_cons_of_pos _ (by simpa using he)] at hnone
      simp at hnone
    have hrest : mapGet rest "date" = none := by
      unfold mapGet at hnone ⊢
      rw [List.find?_cons_of_neg _ (by simpa using hk)] at hnone
      exact hnone
    unfold processKeys at h
    rw [List.foldlM_cons] at h
    rcases e : applyKey tp a0 kv.1 kv.2 with err | a1
    · rw [e] at h
      exact Except.noConfusion h
    · rw [e] at h
      have hb := ih a1 h hrest
      rw [hb, (applyKey_preserve e).1 hk]

/-- Without a `type` binding the key loop leaves the type alone. -/
theorem processKeys_type_none (tp : TimeParse) (fm : List (String × String))
    (a0 b : Article) (h : processKeys tp fm a0 = .ok b)
    (hnone : mapGet fm "type" = none) :
    b.Typ = a0.Typ := by
  induction fm generalizing a0 with
  | nil =>
    unfold processKeys at h
    simp only [List.foldlM_nil] at h
    injection h with h
    rw [h]
  | cons kv rest ih =>
    have hk : ¬ kv.1 = "type" := by
      intro he
      unfold mapGet at hnone
      rw [List.find?_cons_of_pos _ (by simpa using he)] at hnone
      simp at hnone
    have hrest : mapGet rest "type" = none := by
      unfold mapGet at hnone ⊢
      rw [List.find?_cons_of_neg _ (by simpa using hk)] at hnone
      exact hnone
    unfold processKeys at h
    rw [List.foldlM_cons] at h
    rcases e : applyKey tp a0 kv.1 kv.2 with err | a1
    · rw [e] at h
      exact Except.noConfusion h
    · rw [e] at h
      have hb := ih a1 h hrest
      rw [hb, (applyKey_preserve e).2 hk]

/-- A key bound in the map is absent from the tail when the keys are
nodup. -/
theorem mapGet_tail_none {kv : String × String} {rest : List (String × String)} {k : String}
    (hnd : (((kv :: rest).map Prod.fst)).Nodup) (hk : kv.1 = k) :
    mapGet rest k = none := by
  rw [List.map_cons, List.nodup_cons] at hnd
  unfold mapGet
  rw [List.find?_eq_none.mpr]
  · rfl
  · intro x hx
    simp only [decide_eq_true_eq]
    intro hxk
    exact hnd.1 (hk ▸ hxk ▸ List.mem_map_of_mem Prod.fst hx)

/-- With a unique parseable `date` binding the key loop resolves the
modification date to the parsed time. -/
theorem processKeys_date_some (tp : TimeParse) (fm : List (String × String))
    (a0 b : Article) (v : String) (t : Time)
    (hnd : (fm.map Prod.fst).Nodup)
    (h : processKeys tp fm a0 = .ok b)
    (hget : mapGet fm "date" = some v) (hres : resolveDate tp v = some t) :
    b.DateModified = some t := by
  induction fm generalizing a0 with
  | nil => simp [mapGet] at hget
  | cons kv rest ih =>
    by_cases hk : kv.1 = "date"
    · have hv : kv.2 = v := by
        unfold mapGet at hget
        rw [List.find?_cons_of_pos _ (by simpa using hk)] at hget
        simpa using hget
      unfold processKeys at h
      rw [List.foldlM_cons] at h
      rw [hk, hv, applyKey_date, hres] at h
      have hrest := mapGet_tail_none hnd hk
      exact (processKeys_date_none tp rest _ b h hrest).trans rfl
    · have hgetrest : mapGet rest "date" = some v := by
        unfold mapGet at hget ⊢
        rw [List.find?_cons_of_neg _ (by simpa using hk)] at hget
        exact hget
      have hndrest : (rest.map Prod.fst).Nodup := by
        rw [List.map_cons, List.nodup_cons] at hnd
        exact hnd.2
      unfold processKeys at h
      rw [List.foldlM_cons] at h
      rcases e : applyKey tp a0 kv.1 kv.2 with err | a1
      · rw [e] at h
        exact Except.noConfusion h
      · rw [e] at h
        exact ih a1 hndrest h hgetrest

/-- With a unique `type` binding the key loop sets the type by exact
string match, leaving it untouched on an unrecognized value. -/
theorem processKeys_type_some (tp : TimeParse) (fm : List (String × String))
    (a0 b : Article) (v : String)
    (hnd : (fm.map Prod.fst).Nodup)
    (h : processKeys tp fm a0 = .ok b)
    (hget : mapGet fm "type" = some v) :
    b.Typ = (if v = "Post" then Post else if v = "Page" then Page
             else if v = "Snippet" then Snippet else a0.Typ) := by
  induction fm generalizing a0 with
  | nil => simp [mapGet] at hget
  | cons kv rest ih =>
    by_cases hk : kv.1 = "type"
    · have hv : kv.2 = v := by
        unfold mapGet at hget
        rw [List.find?_cons_of_pos _ (by simpa using hk)] at hget
        simpa using hget
      unfold processKeys at h
      rw [List.foldlM_cons] at h
      rw [hk, hv, applyKey_type] at h
      have hrest := mapGet_tail_none hnd hk
      exact (processKeys_type_none tp rest _ b h hrest).trans rfl
    · have hgetrest : mapGet rest "type" = some v := by
        unfold mapGet at hget ⊢
        rw [List.find?_cons_of_neg _ (by simpa using hk)] at hget
        exact hget
      have hndrest : (rest.map Prod.fst).Nodup := by
        rw [List.map_cons, List.nodup_cons] at hnd
        exact hnd.2
      unfold processKeys at h
      rw [List.foldlM_cons] at h
      rcases e : applyKey tp a0 kv.1 kv.2 with err | a1
      · rw [e] at h
        exact Except.noConfusion h
      · rw [e] at h
        rw [ih a1 hndrest h hgetrest, (applyKey_preserve e).2 hk]

/-- A `date` or `updated` binding neither format parses makes the key
loop fail. -/
theorem processKeys_error (tp : TimeParse) (fm : List (String × String))
    (a0 : Article) (key v : String)
    (hmem : (key, v) ∈ fm) (hkey : key = "date" ∨ key = "updated")
    (hbad : resolveDate tp v = none) :
    ∃ e, processKeys tp fm a0 = .error e := by
  induction fm generalizing a0 with
  | nil => simp at hmem
  | cons kv rest ih =>
    unfold processKeys at ih ⊢
    rw [List.foldlM_cons]
    rcases e : applyKey tp a0 kv.1 kv.2 with err | a1
    · exact ⟨err, rfl⟩
    · rcases List.mem_cons.mp hmem with he | hm
      · exfalso
        rw [← he] at e
        rcases hkey with hd | hu
        · rw [hd, applyKey_date, hbad] at e
          exact Except.noConfusion e
        · rw [hu, applyKey_updated, hbad] at e
          exact Except.noConfusion e
      · obtain ⟨e2, he2⟩ := ih a1 hm
        exact ⟨e2, he2⟩

/-- A map assignment keeps the keys nodup. -/
theorem mapSet_keys_nodup (m : List (String × String)) (k v : String)
    (h : (m.map Prod.fst).Nodup) : ((mapSet m k v).map Prod.fst).Nodup := by
  unfold mapSet
  rw [List.map_append]
  apply List.Nodup.append
  · exact h.sublist (List.Sublist.map Prod.fst (List.filter_sublist m))
  · simp
  · intro x hx hy
    simp only [List.map_cons, List.map_nil, List.mem_singleton] at hy
    subst hy
    obtain ⟨p, hp, hpk⟩ := List.mem_map.mp hx
    have hne := (List.mem_filter.mp hp).2
    simp only [decide_eq_true_eq] at hne
    exact hne hpk

/-- One loop iteration keeps the keys nodup. -/
theorem stepData_keys_nodup (data : List (String × String)) (line : List Char)
    (h : (data.map Prod.fst).Nodup) : ((stepData data line).map Prod.fst).Nodup := by
  unfold stepData
  rcases e : splitAtColon line with _ | kv
  · exact h
  · exact mapSet_keys_nodup data _ _ h

/-- The reading loop keeps the keys nodup. -/
theorem parseFMLoop_keys_nodup (fuel : Nat) (input : List Char)
    (data : List (String × String)) (h : (data.map Prod.fst).Nodup) :
    (((parseFMLoop fuel input data).1).map Prod.fst).Nodup := by
  induction fuel generalizing input data with
  | zero => exact h
  | succ f ih =>
    rcases hr : readLineCh input with ⟨line, rest, err⟩
    cases err with
    | true => simp [parseFMLoop, hr, h]
    | false =>
      by_cases hp : ("---".data).isPrefixOf line
      · simp [parseFMLoop, hr, hp, h]
      · simp only [parseFMLoop, hr, hp, if_false, Bool.false_eq_true]
        exact ih rest (stepData data line) (stepData_keys_nodup data line h)

/-- The parsed front matter has nodup keys (Go maps have unique
keys). -/
theorem ParseFrontMatter_keys_nodup {input : List Char} {fm : List (String × String)}
    {rest : List Char} (h : ParseFrontMatter input = .ok (fm, rest)) :
    (fm.map Prod.fst).Nodup := by
  simp only [ParseFrontMatter] at h
  split at h
  · exact Except.noConfusion h
  · injection h with h
    have hfm : (parseFMLoop ((readLineCh input).2.1.length + 1) (readLineCh input).2.1 []).1 = fm :=
      congrArg Prod.fst h
    rw [← hfm]
    exact parseFMLoop_keys_nodup _ _ [] (by simp)

/-- A bound key is an entry of the map. -/
theorem mapGet_mem {m : List (String × String)} {k v : String}
    (h : mapGet m k = some v) : (k, v) ∈ m := by
  unfold mapGet at h
  rcases e : m.find? (fun p => decide (p.1 = k)) with _ | p
  · rw [e] at h
    exact Option.noConfusion h
  · rw [e] at h
    injection h with h
    have hpm := List.mem_of_find?_eq_some e
    have hpk : p.1 = k := by simpa using List.find?_some e
    have : p = (k, v) := by
      rw [Prod.ext_iff]
      exact ⟨hpk, h⟩
    rw [← this]
    exact hpm

/-- A file whose article fails to parse contributes nothing. -/
theorem processFile_none (tp : TimeParse) (render : String → String) (ext : String)
    (now : Time) (f : SourceFile) (e : String)
    (h : ReadArticle tp now f.content.data = .error e) :
    processFile tp render ext now f = none := by
  unfold processFile
  rw [h]

/-- Skipping a failed file leaves the run on the remaining files. -/
theorem generate_skip (tp : TimeParse) (render : String → String) (ext : String)
    (now : Time) (xs ys : List SourceFile) (f : SourceFile)
    (hf : processFile tp render ext now f = none) :
    generate tp render ext now (xs ++ f :: ys) = generate tp render ext now (xs ++ ys) := by
  have harts : (xs ++ f :: ys).filterMap (processFile tp render ext now) =
      (xs ++ ys).filterMap (processFile tp render ext now) := by
    simp [List.filterMap_append, List.filterMap_cons, hf]
  simp only [generate, harts]

/-- C4: a successfully constructed article always carries a
modification date — the parsed value when a parseable `date` binding
exists, and the current time when the binding is absent. -/
theorem claim_C4 (tp : TimeParse) (now : Time) (input : List Char)
    (fm : List (String × String)) (rest : List Char) (a : Article)
    (hp : ParseFrontMatter input = .ok (fm, rest))
    (hr : ReadArticle tp now input = .ok a) :
    (∃ t, a.DateModified = some t) ∧
    (∀ v t, mapGet fm "date" = some v → resolveDate tp v = some t →
      a.DateModified = some t) ∧
    (mapGet fm "date" = none → a.DateModified = some now) := by
  simp only [ReadArticle, hp] at hr
  rcases ek : processKeys tp fm {} with e | a0
  · rw [ek] at hr
    exact Except.noConfusion hr
  · rw [ek] at hr
    injection hr with hr
    subst hr
    rcases hdm : a0.DateModified with _ | t0
    · refine ⟨⟨now, by simp [hdm]⟩, ?_, fun _ => by simp [hdm]⟩
      intro v t hv ht
      have h2 := processKeys_date_some tp fm {} a0 v t
        (ParseFrontMatter_keys_nodup hp) ek hv ht
      rw [hdm] at h2
      exact Option.noConfusion h2
    · refine ⟨⟨t0, by simp [hdm]⟩, ?_, ?_⟩
      · intro v t hv ht
        have h2 := processKeys_date_some tp fm {} a0 v t
          (ParseFrontMatter_keys_nodup hp) ek hv ht
        rw [hdm] at h2
        injection h2 with h2
        simp [hdm, h2]
      · intro hn
        have h2 := processKeys_date_none tp fm {} a0 ek hn
        rw [hdm] at h2
        exact Option.noConfusion h2

/-- Witness: with a parseable `date: D` header the constructed
article carries the parsed time. -/
theorem claim_C4_witness :
    ({ DateModified := some (Time.mk 7 2024 3), RawContent := "b" } : Article).DateModified =
      some (Time.mk 7 2024 3) := by
  have h := claim_C4
    (fun l v => if l == DefaultDateFormat && v == "D" then some (Time.mk 7 2024 3) else none)
    (Time.mk 0 1 1) ("---\ndate: D\n---\nb".data) [("date", "D")] ("b".data)
    { DateModified := some (Time.mk 7 2024 3), RawContent := "b" } rfl rfl
  exact h.2.1 "D" (Time.mk 7 2024 3) rfl rfl

/-- C8 (amended): the constructed article's type is the exact-match
image of the `type` binding, and when the binding is absent or
unrecognized the field keeps the zero value, the empty string — which
is none of `Post`, `Page`, `Snippet` — rather than defaulting to
`Post`. -/
theorem claim_C8 (tp : TimeParse) (now : Time) (input : List Char)
    (fm : List (String × String)) (rest : List Char) (a : Article)
    (hp : ParseFrontMatter input = .ok (fm, rest))
    (hr : ReadArticle tp now input = .ok a) :
    a.Typ = (match mapGet fm "type" with
             | some v => if v = "Post" then Post else if v = "Page" then Page
                         else if v = "Snippet" then Snippet else ""
             | none => "") := by
  simp only [ReadArticle, hp] at hr
  rcases ek : processKeys tp fm {} with e | a0
  · rw [ek] at hr
    exact Except.noConfusion hr
  · rw [ek] at hr
    injection hr with hr
    subst hr
    have hty : ∀ b : Article,
        ({ (if b.DateModified.isNone then { b with DateModified := some now } else b) with
            RawContent := String.mk rest } : Article).Typ = b.Typ := by
      intro b
      rcases hdm : b.DateModified with _ | t0 <;> simp [hdm]
    rw [hty a0]
    rcases hget : mapGet fm "type" with _ | v
    · exact processKeys_type_none tp fm {} a0 ek hget
    · exact processKeys_type_some tp fm {} a0 v (ParseFrontMatter_keys_nodup hp) ek hget

/-- Witness: an exact `type: Snippet` binding maps to `Snippet`. -/
theorem claim_C8_witness :
    ({ DateModified := some (Time.mk 0 1 1), Typ := Snippet } : Article).Typ = Snippet := by
  have h := claim_C8 (fun _ _ => none) (Time.mk 0 1 1) ("---\ntype: Snippet\n---\n".data)
    [("type", "Snippet")] [] { DateModified := some (Time.mk 0 1 1), Typ := Snippet } rfl rfl
  rw [h]
  rfl

/-- Counterexample to C8 as stated: with the `type` key absent the
constructed article's type is the empty string, not `Post`. -/
theorem claim_C8_counterexample :
    Except.map (fun a : Article => a.Typ)
        (ReadArticle (fun _ _ => none) (Time.mk 0 1 1) ("---\ntitle: x\n---\nb".data)) =
      .ok "" ∧ ("" : PageType) ≠ Post :=
  ⟨rfl, by decide⟩

/-- C6: an unparseable `date` (or `updated`) value makes article
construction fail with a recoverable error, and the pipeline skips the
failing file, producing exactly the run over the remaining files — it
never aborts the whole run. -/
theorem claim_C6 :
    (∀ (tp : TimeParse) (now : Time) (input : List Char)
        (fm : List (String × String)) (rest : List Char) (v : String),
      ParseFrontMatter input = .ok (fm, rest) →
      (mapGet fm "date" = some v ∨ mapGet fm "updated" = some v) →
      tp DefaultDateFormat v = none → tp IFTTTDateFormat v = none →
      ∃ e, ReadArticle tp now input = .error e) ∧
    (∀ (tp : TimeParse) (render : String → String) (ext : String) (now : Time)
        (xs ys : List SourceFile) (f : SourceFile) (e : String),
      ReadArticle tp now f.content.data = .error e →
      generate tp render ext now (xs ++ f :: ys) = generate tp render ext now (xs ++ ys)) := by
  constructor
  · intro tp now input fm rest v hp hor hb1 hb2
    have hres : resolveDate tp v = none := by
      unfold resolveDate
      rw [hb1]
      exact hb2
    have hmem : ("date", v) ∈ fm ∨ ("updated", v) ∈ fm := by
      rcases hor with h | h
      · exact Or.inl (mapGet_mem h)
      · exact Or.inr (mapGet_mem h)
    have herr : ∃ e, processKeys tp fm ({} : Article) = .error e := by
      rcases hmem with h | h
      · exact processKeys_error tp fm {} "date" v h (Or.inl rfl) hres
      · exact processKeys_error tp fm {} "updated" v h (Or.inr rfl) hres
    obtain ⟨e2, he2⟩ := herr
    refine ⟨e2, ?_⟩
    simp only [ReadArticle, hp, he2]
  · intro tp render ext now xs ys f e h
    exact generate_skip tp render ext now xs ys f (processFile_none tp render ext now f e h)

/-- Witness: a concrete unparseable date errors out of construction,
and a corpus containing that file generates exactly as the corpus
without it. -/
theorem claim_C6_witness :
    (∃ e, ReadArticle (fun _ _ => none) (Time.mk 0 1 1) ("---\ndate: X\n---\n".data) =
      .error e) ∧
    generate (fun _ _ => none) (fun s => s) "" (Time.mk 0 1 1)
        [SourceFile.mk "good" "---\n---\nA", SourceFile.mk "bad" "---\ndate: X\n---\n"] =
      generate (fun _ _ => none) (fun s => s) "" (Time.mk 0 1 1)
        [SourceFile.mk "good" "---\n---\nA"] := by
  constructor
  · exact claim_C6.1 (fun _ _ => none) (Time.mk 0 1 1) ("---\ndate: X\n---\n".data)
      [("date", "X")] [] "X" rfl (Or.inl rfl) rfl rfl
  · exact claim_C6.2 (fun _ _ => none) (fun s => s) "" (Time.mk 0 1 1)
      [SourceFile.mk "good" "---\n---\nA"] [] (SourceFile.mk "bad" "---\ndate: X\n---\n")
      "date parse error" rfl

/-! ### Classification facts -/

/-- The classification loop, fully characterized: every article joins
All; the three derived views are the evident filters. -/
theorem classify_foldl (arts : List Article) (v0 : Views) :
    arts.foldl classifyStep v0 =
      { all := v0.all ++ arts,
        index := v0.index ++ arts.filter (fun a => !(a.Typ == Page) && !a.Draft),
        feed := v0.feed ++ arts.filter (fun a => (a.Typ == Post) && !a.Draft),
        snippets := v0.snippets ++ arts.filter (fun a => (a.Typ == Snippet) && !a.Draft) } := by
  induction arts generalizing v0 with
  | nil => simp
  | cons a rest ih =>
    rw [List.foldl_cons, ih]
    unfold classifyStep
    by_cases hP : a.Typ = Page
    · simp +decide [hP, List.filter_cons, List.append_assoc]
    · by_cases hD : a.Draft
      · simp [hP, hD, List.filter_cons, List.append_assoc]
      · by_cases hPo : a.Typ = Post
        · simp +decide [hP, hD, hPo, List.filter_cons, List.append_assoc]
        · by_cases hSn : a.Typ = Snippet
          · simp +decide [hP, hD, hPo, hSn, List.filter_cons, List.append_assoc]
          · simp [hP, hD, hPo, hSn, List.filter_cons, List.append_assoc]

/-- C1 (amended): every successfully processed article joins the All
view; Feed is exactly the non-draft Posts; SnippetFeed exactly the
non-draft Snippets; drafts (whether flagged in the header or forced by
the "draft" filename suffix) and Pages join none of the three — but
Index is exactly the non-draft articles whose type is not Page, which
also admits articles whose type is neither Post nor Snippet (such as
the empty default type). -/
theorem claim_C1 (tp : TimeParse) (render : String → String) (ext : String) (now : Time)
    (files : List SourceFile) (a : Article) :
    (a ∈ (generate tp render ext now files).all ↔
      a ∈ files.filterMap (processFile tp render ext now)) ∧
    (a ∈ (generate tp render ext now files).feed ↔
      a ∈ files.filterMap (processFile tp render ext now) ∧
        a.Draft = false ∧ a.Typ = Post) ∧
    (a ∈ (generate tp render ext now files).snippets ↔
      a ∈ files.filterMap (processFile tp render ext now) ∧
        a.Draft = false ∧ a.Typ = Snippet) ∧
    (a ∈ (generate tp render ext now files).index ↔
      a ∈ files.filterMap (processFile tp render ext now) ∧
        a.Draft = false ∧ ¬ a.Typ = Page) ∧
    (∀ (f : SourceFile) (b : Article), processFile tp render ext now f = some b →
      strEndsWith f.name "draft" = true → b.Draft = true) := by
  have hcl := classify_foldl (files.filterMap (processFile tp render ext now)) {}
  refine ⟨?_, ?_, ?_, ?_, ?_⟩
  · simp only [generate, mem_sortView, classify, hcl]
    simp
  · simp only [generate, mem_sortView, classify, hcl]
    simp [List.mem_filter, and_assoc]
    exact fun x hx hpf => and_comm
  · simp only [generate, mem_sortView, classify, hcl]
    simp [List.mem_filter, and_assoc]
    exact fun x hx hpf => and_comm
  · simp only [generate, mem_sortView, classify, hcl]
    simp [List.mem_filter, and_assoc]
    exact fun x hx hpf => and_comm
  · intro f b hpf hsuf
    unfold processFile at hpf
    rcases hra : ReadArticle tp now f.content.data with e | a0
    · rw [hra] at hpf
      exact Option.noConfusion hpf
    · rw [hra] at hpf
      simp only [hsuf, if_true] at hpf
      injection hpf with hpf
      rw [← hpf]

/-- Counterexample to C1 as stated: an article with the `type` key
absent (empty type) is neither a Post nor a Snippet yet lands in the
Index view. -/
theorem claim_C1_counterexample :
    ((generate (fun _ _ => none) (fun s => s) "" (Time.mk 0 1 1)
        [SourceFile.mk "hello" "---\ntitle: x\n---\nbody"]).index.map
      (fun a => a.Typ)) = [""] ∧
    ¬(("" : PageType) = Post ∨ ("" : PageType) = Snippet) :=
  ⟨rfl, by decide⟩

/-! ### Tag-index facts -/

/-- C9 (amended): the run emits one tag page per distinct tag name
occurring on the articles of the All view — including tags carried
only by drafts or Pages, which yield pages listing no articles — and
every emitted page lists exactly the Index articles carrying the tag,
in the common descending date order. -/
theorem claim_C9 (tp : TimeParse) (render : String → String) (ext : String) (now : Time)
    (files : List SourceFile) (t : String) :
    ((∃ l, (t, l) ∈ (generate tp render ext now files).tagPages) ↔
      ∃ a, a ∈ (generate tp render ext now files).all ∧ ∃ tg, tg ∈ a.Tags ∧ tg.Name = t) ∧
    (∀ l, (t, l) ∈ (generate tp render ext now files).tagPages →
      l = (generate tp render ext now files).index.filter (fun a => a.HasTag t) ∧
      l.Pairwise (fun x y => dateVal y ≤ dateVal x)) := by
  constructor
  · simp only [generate, List.mem_map, collectTagNames, List.mem_dedup, List.mem_flatten]
    constructor
    · rintro ⟨l, t2, ht2, he⟩
      injection he with he1 he2
      subst he1
      obtain ⟨names, ⟨a, ha, rfl⟩, htn⟩ := ht2
      obtain ⟨tg, htg, rfl⟩ := List.mem_map.mp htn
      exact ⟨a, ha, tg, htg, rfl⟩
    · rintro ⟨a, ha, tg, htg, rfl⟩
      refine ⟨_, tg.Name, ⟨a.Tags.map (fun tg => tg.Name), ⟨a, ha, rfl⟩,
        List.mem_map_of_mem _ htg⟩, rfl⟩
  · intro l hl
    simp only [generate, List.mem_map] at hl
    obtain ⟨t2, ht2, he⟩ := hl
    injection he with he1 he2
    subst he1
    rw [← he2]
    exact ⟨rfl, (sortView_pairwise _).filter _⟩

/-- Counterexample to C9 as stated: a tag occurring only on a draft —
hence never in Index — still gets a tag-index page (listing no
articles). -/
theorem claim_C9_counterexample :
    (generate (fun _ _ => none) (fun s => s) "" (Time.mk 0 1 1)
        [SourceFile.mk "d-draft" "---\ntags: x\n---\nb"]).index = [] ∧
    ((generate (fun _ _ => none) (fun s => s) "" (Time.mk 0 1 1)
        [SourceFile.mk "d-draft" "---\ntags: x\n---\nb"]).tagPages.map Prod.fst) = ["x"] :=
  ⟨rfl, rfl⟩

end Blogger
